import Mathlib

/-
Verification of the tmap permutation/tree library.

This file gives a shallow embedding of the core of the `tmap` repository
(`tmap/utils.py`, `tmap/permutation.py`, `tmap/tree.py`) and proves or
refutes the specified properties about it.

Modelling conventions:
* Python lists of machine integers become `List Nat` (all quantities of the
  core are non-negative).
* Fallible Python code (code that can raise `TypeError`/`IndexError` when an
  element is not found or an index is out of range) is modelled with
  `Option`: `none` models the raised exception.
* Python's stable `sorted` is modelled by the stable insertion sort `sortPy`
  below.
* In-place mutation of a tree is modelled functionally: each method that
  mutates a tree bottom-up in traversal order (children strictly before
  their parent, distinct subtrees touching disjoint state) becomes a
  structural recursion producing the new tree.
-/

/-- `utils.which(l, cond)`: index of the first element of `l` satisfying
`cond`, or `None` (here `none`). -/
def which {α : Type} : List α → (α → Bool) → Option Nat
  | [], _ => none
  | x :: xs, cond => if cond x then some 0 else (which xs cond).map (· + 1)

/-- Stable insertion used by `sortPy`: `x` is placed before the first
element that is not strictly smaller than it, so elements that compare
equal keep their original relative order. -/
def insertSorted {α : Type} (le : α → α → Bool) (x : α) : List α → List α
  | [] => [x]
  | y :: ys => if le y x && !(le x y) then y :: insertSorted le x ys else x :: y :: ys

/-- Python's built-in stable `sorted` (used by `utils.order`, `Tree.swap`
and `TreePermutation.canonical`), modelled as a stable insertion sort.  A
structurally recursive model is chosen so that concrete runs compute inside
the kernel; it produces the same list as any stable sort by the same key. -/
def sortPy {α : Type} (le : α → α → Bool) : List α → List α
  | [] => []
  | x :: xs => insertSorted le x (sortPy le xs)

theorem insertSorted_perm {α : Type} (le : α → α → Bool) (x : α) :
    ∀ l : List α, (insertSorted le x l).Perm (x :: l) := by
  intro l
  induction l with
  | nil => exact List.Perm.refl [x]
  | cons y ys ih =>
    rw [insertSorted]
    by_cases h : (le y x && !(le x y)) = true
    · rw [if_pos h]
      exact (ih.cons y).trans (List.Perm.swap x y ys)
    · rw [if_neg h]

theorem sortPy_perm {α : Type} (le : α → α → Bool) :
    ∀ l : List α, (sortPy le l).Perm l := by
  intro l
  induction l with
  | nil => exact List.Perm.refl []
  | cons x xs ih =>
    rw [sortPy]
    exact (insertSorted_perm le x (sortPy le xs)).trans (ih.cons x)

theorem insertSorted_pairwise {α : Type} (le : α → α → Bool)
    (htrans : ∀ a b c, le a b = true → le b c = true → le a c = true)
    (htotal : ∀ a b, (le a b || le b a) = true) (x : α) :
    ∀ l : List α, l.Pairwise (fun a b => le a b = true) →
      (insertSorted le x l).Pairwise (fun a b => le a b = true) := by
  intro l
  induction l with
  | nil => intro _; simp [insertSorted]
  | cons y ys ih =>
    intro hp
    obtain ⟨hy, hys⟩ := List.pairwise_cons.mp hp
    rw [insertSorted]
    by_cases h : (le y x && !(le x y)) = true
    · rw [if_pos h]
      apply List.pairwise_cons.mpr
      constructor
      · intro z hz
        rcases List.mem_cons.mp ((insertSorted_perm le x ys).subset hz) with hz1 | hz2
        · rw [hz1]
          exact ((Bool.and_eq_true _ _).mp h).1
        · exact hy z hz2
      · exact ih hys
    · rw [if_neg h]
      have hxy : le x y = true := by
        by_cases hxy2 : le x y = true
        · exact hxy2
        · exfalso
          have ht := htotal x y
          rw [Bool.or_eq_true] at ht
          rcases ht with ht | ht
          · exact hxy2 ht
          · have hxyf : le x y = false := Bool.eq_false_iff.mpr hxy2
            exact h (by simp [ht, hxyf])
      apply List.pairwise_cons.mpr
      refine ⟨?_, hp⟩
      intro z hz
      rcases List.mem_cons.mp hz with hz1 | hz2
      · rw [hz1]; exact hxy
      · exact htrans x y z hxy (hy z hz2)

theorem sortPy_pairwise {α : Type} (le : α → α → Bool)
    (htrans : ∀ a b c, le a b = true → le b c = true → le a c = true)
    (htotal : ∀ a b, (le a b || le b a) = true) :
    ∀ l : List α, (sortPy le l).Pairwise (fun a b => le a b = true) := by
  intro l
  induction l with
  | nil => simp [sortPy]
  | cons x xs ih =>
    rw [sortPy]
    exact insertSorted_pairwise le htrans htotal x (sortPy le xs) ih

/-- `utils.order(l)` with the default key: the index list that would sort
`l`, obtained by stably sorting the pairs `(l[i], i)` by value and keeping
the indices (`[x[1] for x in sorted(zip(l, range(len(l))))]`). -/
def order (l : List Nat) : List Nat :=
  (sortPy (fun a b => a.1 ≤ b.1) (l.zip (List.range l.length))).map (fun x => x.2)

/-- `utils.isindex(l)`: `True` iff every integer of `range(len(l))` occurs
in `l`. -/
def isindex (l : List Nat) : Bool :=
  (List.range l.length).all (fun i => l.contains i)

/-- Loop body of `utils.factorial`: `while n > 1: r = r * n; n = n - 1`. -/
def factorialGo : Nat → Nat → Nat
  | r, 0 => r
  | r, 1 => r
  | r, n + 2 => factorialGo (r * (n + 2)) (n + 1)

/-- `utils.factorial(n)`. -/
def factorial (n : Nat) : Nat := factorialGo 1 n

/-- Decoding loop of `Permutation.__init__(n, id)`:
`while id > 0 and len(slots) > 0`, pick `slots[id % len(slots)]`, divide
`id` by `len(slots)`, remove the picked value from `slots`; the final
element list is the picked prefix followed by the remaining slots. -/
def permFromIdGo (id : Nat) (slots : List Nat) : List Nat :=
  if h : 0 < id ∧ 0 < slots.length then
    slots.get ⟨id % slots.length, Nat.mod_lt id h.2⟩ ::
      permFromIdGo ((id - id % slots.length) / slots.length)
        (slots.filter (fun x => x != slots.get ⟨id % slots.length, Nat.mod_lt id h.2⟩))
  else
    slots
termination_by slots.length
decreasing_by
  exact List.length_filter_lt_length_iff_exists.mpr
    ⟨slots.get ⟨id % slots.length, Nat.mod_lt id h.2⟩, List.get_mem _ _ _, by simp⟩

/-- `Permutation.__init__(n, id)` for `int` arguments: reduce `id` modulo
`n!` and run the decoding loop on `slots = list(range(n))`. -/
def permFromId (n : Nat) (id : Nat) : List Nat :=
  permFromIdGo (id % factorial n) (List.range n)

/-- Loop of `Permutation.id()`: for each element `e` (left to right), find
its rank `j` in the shrinking list `avail`, accumulate `mul * j`, multiply
`mul` by the pre-removal length, and remove the consumed value
(`avail[:j] + avail[j+1:]`).  A `None` rank (element not found) makes the
Python code raise, modelled by `none`. -/
def idGo : List Nat → List Nat → Nat → Option Nat
  | [], _, _ => some 0
  | e :: es, avail, mul =>
    match which avail (fun x => x == e) with
    | none => none
    | some j => (idGo es (avail.eraseIdx j) (mul * avail.length)).map (fun r => mul * j + r)

/-- `Permutation.id()`. -/
def permId (l : List Nat) : Option Nat :=
  idGo l (List.range l.length) 1

/-- `Permutation.__init__(n)` for a list argument: accepted iff the list is
a complete index (`ValueError` otherwise, modelled by `none`). -/
def fromList (l : List Nat) : Option (List Nat) :=
  if isindex l then some l else none

/-- `Permutation.__add__`: fails (`ValueError`, modelled `none`) on
different lengths, otherwise builds `Permutation(len(self), (self.id() + p.id()) % factorial(len(p)))`. -/
def addPerm (a b : List Nat) : Option (List Nat) :=
  if a.length ≠ b.length then none
  else
    match permId a, permId b with
    | some ia, some ib => some (permFromId a.length ((ia + ib) % factorial b.length))
    | _, _ => none

/-- `Permutation.inverse()`: the element list of the inverse is
`order(elements)`. -/
def inversePerm (l : List Nat) : List Nat := order l

/-- `elements` being "a permutation of `range(n)`". -/
def isPerm (n : Nat) (l : List Nat) : Prop := l.Perm (List.range n)

instance (n : Nat) (l : List Nat) : Decidable (isPerm n l) := by
  unfold isPerm; infer_instance

/-! Helper lemmas about `factorial`, `which` and erasure. -/

theorem factorialGo_eq : ∀ (n r : Nat), factorialGo r n = r * n.factorial := by
  intro n
  induction n using Nat.strong_induction_on with
  | _ n ih =>
    match n with
    | 0 => intro r; simp [factorialGo, Nat.factorial]
    | 1 => intro r; simp [factorialGo, Nat.factorial]
    | n + 2 =>
      intro r
      have h2 : (n + 2).factorial = (n + 2) * (n + 1).factorial := Nat.factorial_succ (n + 1)
      rw [factorialGo, ih (n + 1) (by omega), h2]
      ring

theorem factorial_eq (n : Nat) : factorial n = n.factorial := by
  rw [factorial, factorialGo_eq, one_mul]

theorem factorial_pos (n : Nat) : 0 < factorial n := by
  rw [factorial_eq]; exact n.factorial_pos

theorem which_spec {α : Type} :
    ∀ (l : List α) (p : α → Bool) (j : Nat), which l p = some j →
      ∃ hj : j < l.length, p (l.get ⟨j, hj⟩) = true := by
  intro l
  induction l with
  | nil => intro p j h; simp [which] at h
  | cons x xs ih =>
    intro p j h
    rw [which] at h
    by_cases hc : p x = true
    · rw [if_pos hc] at h
      simp only [Option.some.injEq] at h
      subst h
      exact ⟨by simp, hc⟩
    · rw [if_neg hc] at h
      match hw : which xs p with
      | none => rw [hw] at h; simp at h
      | some j0 =>
        rw [hw] at h
        simp only [Option.map_some', Option.some.injEq] at h
        subst h
        obtain ⟨hj0, hp⟩ := ih p j0 hw
        exact ⟨by simpa using Nat.succ_lt_succ hj0, by simpa using hp⟩

theorem which_beq_get :
    ∀ (l : List Nat), l.Nodup → ∀ (s : Nat) (hs : s < l.length),
      which l (fun x => x == l.get ⟨s, hs⟩) = some s := by
  intro l
  induction l with
  | nil => intro _ s hs; simp at hs
  | cons x xs ih =>
    intro hnd s hs
    match s with
    | 0 => simp [which]
    | s + 1 =>
      have hmem : (x :: xs).get ⟨s + 1, hs⟩ ∈ xs := by
        simp only [List.get_cons_succ]
        exact List.get_mem _ _ _
      have hx : ¬ (x == (x :: xs).get ⟨s + 1, hs⟩) = true := by
        intro hc
        rw [beq_iff_eq] at hc
        exact (List.nodup_cons.mp hnd).1 (hc ▸ hmem)
      rw [which, if_neg hx]
      have := ih (List.nodup_cons.mp hnd).2 s (by simpa using Nat.lt_of_succ_lt_succ hs)
      simp only [List.get_cons_succ] at this ⊢
      rw [this]
      rfl

theorem which_beq_of_mem :
    ∀ (l : List Nat) (e : Nat), e ∈ l → ∃ j, which l (fun x => x == e) = some j := by
  intro l
  induction l with
  | nil => intro e he; simp at he
  | cons x xs ih =>
    intro e he
    by_cases hc : (x == e) = true
    · exact ⟨0, by rw [which, if_pos hc]⟩
    · have hx : e ∈ xs := by
        rcases List.mem_cons.mp he with h | h
        · subst h; exact absurd (beq_self_eq_true e) hc
        · exact h
      obtain ⟨j, hj⟩ := ih e hx
      exact ⟨j + 1, by rw [which, if_neg hc, hj]; rfl⟩

theorem eraseIdx_eq_erase_of_which :
    ∀ (l : List Nat) (v j : Nat), which l (fun x => x == v) = some j →
      l.eraseIdx j = l.erase v := by
  intro l
  induction l with
  | nil => intro v j h; simp [which] at h
  | cons x xs ih =>
    intro v j h
    rw [which] at h
    by_cases hc : (x == v) = true
    · rw [if_pos hc] at h
      simp only [Option.some.injEq] at h
      subst h
      rw [List.eraseIdx, List.erase_cons, if_pos hc]
    · rw [if_neg hc] at h
      match hw : which xs (fun x => x == v) with
      | none => rw [hw] at h; simp at h
      | some j0 =>
        rw [hw] at h
        simp only [Option.map_some', Option.some.injEq] at h
        subst h
        rw [List.eraseIdx, List.erase_cons, if_neg hc, ih v j0 hw]

theorem mod_mul_decomp (a m k : Nat) : a % (m * k) = a % m + m * ((a / m) % k) := by
  conv_lhs => rw [← Nat.div_add_mod (a % (m * k)) m]
  rw [Nat.mod_mul_right_div_self, Nat.mod_mod_of_dvd a ⟨k, rfl⟩]
  ring

theorem idGo_self : ∀ (l : List Nat) (mul : Nat), idGo l l mul = some 0 := by
  intro l
  induction l with
  | nil => intro mul; rfl
  | cons x xs ih =>
    intro mul
    rw [idGo]
    have hw : which (x :: xs) (fun y => y == x) = some 0 := by
      rw [which, if_pos (beq_self_eq_true x)]
    rw [hw]
    show (idGo xs ((x :: xs).eraseIdx 0) _).map _ = some 0
    rw [List.eraseIdx, ih]
    simp

theorem idGo_mul (es : List Nat) :
    ∀ (avail : List Nat) (mul : Nat),
      idGo es avail mul = (idGo es avail 1).map (fun r => mul * r) := by
  induction es with
  | nil => intro avail mul; simp [idGo]
  | cons e es ih =>
    intro avail mul
    rw [idGo, idGo]
    match hw : which avail (fun x => x == e) with
    | none => simp
    | some j =>
      simp only []
      rw [ih (avail.eraseIdx j) (mul * avail.length), ih (avail.eraseIdx j) (1 * avail.length)]
      cases hx : idGo es (avail.eraseIdx j) 1 with
      | none => simp
      | some r => simp; ring

theorem permFromIdGo_perm :
    ∀ (n : Nat) (slots : List Nat), slots.length = n → slots.Nodup →
      ∀ (id : Nat), (permFromIdGo id slots).Perm slots := by
  intro n
  induction n using Nat.strong_induction_on with
  | _ n ih =>
    intro slots hlen hnd id
    rw [permFromIdGo]
    by_cases h : 0 < id ∧ 0 < slots.length
    · rw [dif_pos h]
      have hs : id % slots.length < slots.length := Nat.mod_lt id h.2
      have hmem : slots.get ⟨id % slots.length, hs⟩ ∈ slots := List.get_mem _ _ _
      have hfil : slots.filter (fun x => x != slots.get ⟨id % slots.length, hs⟩)
          = slots.erase (slots.get ⟨id % slots.length, hs⟩) :=
        (hnd.erase_eq_filter _).symm
      have hlen2 : (slots.erase (slots.get ⟨id % slots.length, hs⟩)).length
          = slots.length - 1 := List.length_erase_of_mem hmem
      have hrec := ih (slots.length - 1) (by omega)
        (slots.erase (slots.get ⟨id % slots.length, hs⟩)) hlen2 (hnd.erase _)
        ((id - id % slots.length) / slots.length)
      rw [hfil]
      exact ((hrec).cons _).trans (List.perm_cons_erase hmem).symm
    · rw [dif_neg h]

theorem idGo_permFromIdGo :
    ∀ (n : Nat) (slots : List Nat), slots.length = n → slots.Nodup →
      ∀ (id mul : Nat),
        idGo (permFromIdGo id slots) slots mul
          = some (mul * (id % factorial slots.length)) := by
  intro n
  induction n using Nat.strong_induction_on with
  | _ n ih =>
    intro slots hlen hnd id mul
    rw [permFromIdGo]
    by_cases h : 0 < id ∧ 0 < slots.length
    · rw [dif_pos h]
      have hs : id % slots.length < slots.length := Nat.mod_lt id h.2
      have hw : which slots (fun x => x == slots.get ⟨id % slots.length, hs⟩)
          = some (id % slots.length) := which_beq_get slots hnd _ hs
      have hmem : slots.get ⟨id % slots.length, hs⟩ ∈ slots := List.get_mem _ _ _
      have hfil : slots.filter (fun x => x != slots.get ⟨id % slots.length, hs⟩)
          = slots.erase (slots.get ⟨id % slots.length, hs⟩) :=
        (hnd.erase_eq_filter _).symm
      have heq : slots.eraseIdx (id % slots.length)
          = slots.erase (slots.get ⟨id % slots.length, hs⟩) :=
        eraseIdx_eq_erase_of_which slots _ _ hw
      have hlen2 : (slots.erase (slots.get ⟨id % slots.length, hs⟩)).length
          = slots.length - 1 := List.length_erase_of_mem hmem
      rw [idGo]
      simp only [hw]
      rw [hfil, heq]
      rw [ih (slots.length - 1) (by omega) _ hlen2 (hnd.erase _)
        ((id - id % slots.length) / slots.length) (mul * slots.length)]
      simp only [Option.map_some', Option.some.injEq]
      rw [hlen2]
      -- arithmetic
      obtain ⟨k, hk⟩ : ∃ k, slots.length = k + 1 := ⟨slots.length - 1, by omega⟩
      rw [hk]
      simp only [Nat.add_sub_cancel]
      have hdiv : (id - id % (k + 1)) / (k + 1) = id / (k + 1) := by
        have h1 : (k + 1) * (id / (k + 1)) + id % (k + 1) = id := Nat.div_add_mod id (k + 1)
        have h2 : id - id % (k + 1) = (k + 1) * (id / (k + 1)) := by omega
        rw [h2, Nat.mul_div_cancel_left _ (by omega : 0 < k + 1)]
      have hfact : factorial (k + 1) = (k + 1) * factorial k := by
        rw [factorial_eq, factorial_eq, Nat.factorial_succ]
      rw [hdiv, hfact, mod_mul_decomp id (k + 1) (factorial k)]
      ring
    · rw [dif_neg h]
      rw [idGo_self]
      congr 1
      rcases Nat.eq_zero_or_pos id with hid | hid
      · simp [hid]
      · have hlen0 : slots.length = 0 := by
          by_contra hne
          exact h ⟨hid, by omega⟩
        rw [hlen0]
        simp [show factorial 0 = 1 from rfl, Nat.mod_one]

/-- C1: for every `n ≥ 0` and every `0 ≤ id < n!`, `Permutation(n, id).id()`
returns exactly `id`: construction-from-id and `id()` are mutual inverses on
`[0, n!)`. -/
theorem c1_perm_id_roundtrip (n id : Nat) (h : id < factorial n) :
    permId (permFromId n id) = some id := by
  unfold permId permFromId
  have hperm : (permFromIdGo (id % factorial n) (List.range n)).Perm (List.range n) :=
    permFromIdGo_perm n (List.range n) (by simp) (List.nodup_range n) _
  have hlen : (permFromIdGo (id % factorial n) (List.range n)).length = n := by
    simpa using hperm.length_eq
  rw [hlen]
  rw [idGo_permFromIdGo n (List.range n) (by simp) (List.nodup_range n) _ 1]
  have hfn : 0 < factorial n := factorial_pos n
  have h1 : id % factorial n = id := Nat.mod_eq_of_lt h
  rw [List.length_range, h1, Nat.mod_eq_of_lt h, one_mul]

theorem c1_perm_id_roundtrip_witness :
    2 < factorial 3 ∧ permId (permFromId 3 2) = some 2 :=
  ⟨by decide, c1_perm_id_roundtrip 3 2 (by decide)⟩

theorem factorial_succ_eq (m : Nat) : factorial (m + 1) = (m + 1) * factorial m := by
  rw [factorial_eq, factorial_eq, Nat.factorial_succ]

theorem permFromIdGo_step (id : Nat) (slots : List Nat) (hid : 0 < id)
    (hlen : 0 < slots.length) (j : Nat) (hj : j < slots.length)
    (hmod : id % slots.length = j) :
    permFromIdGo id slots
      = slots.get ⟨j, hj⟩ ::
          permFromIdGo ((id - j) / slots.length)
            (slots.filter (fun x => x != slots.get ⟨j, hj⟩)) := by
  subst hmod
  rw [permFromIdGo, dif_pos ⟨hid, hlen⟩]

theorem permFromIdGo_zero (slots : List Nat) : permFromIdGo 0 slots = slots := by
  rw [permFromIdGo, dif_neg (by simp)]

theorem idGo_inverse :
    ∀ (l avail : List Nat), avail.Nodup → l.Perm avail →
      ∃ k, idGo l avail 1 = some k ∧ k < factorial avail.length ∧
        permFromIdGo k avail = l := by
  intro l
  induction l with
  | nil =>
    intro avail hnd hperm
    have havail : avail = [] := List.perm_nil.mp hperm.symm
    subst havail
    exact ⟨0, rfl, factorial_pos 0, permFromIdGo_zero []⟩
  | cons e es ih =>
    intro avail hnd hperm
    have he : e ∈ avail := hperm.subset (List.mem_cons_self e es)
    obtain ⟨j, hw⟩ := which_beq_of_mem avail e he
    obtain ⟨hj, hpj⟩ := which_spec avail _ j hw
    have hgetj : avail.get ⟨j, hj⟩ = e := by rwa [beq_iff_eq] at hpj
    have heq : avail.eraseIdx j = avail.erase e := eraseIdx_eq_erase_of_which avail e j hw
    have hperm2 : es.Perm (avail.erase e) :=
      List.Perm.cons_inv (hperm.trans (List.perm_cons_erase he))
    obtain ⟨k1, hk1, hk1lt, hk1dec⟩ := ih (avail.erase e) (hnd.erase e) hperm2
    have hlenpos : 0 < avail.length := List.length_pos_of_mem he
    have hflen : (avail.erase e).length = avail.length - 1 := List.length_erase_of_mem he
    have hfact : factorial avail.length = avail.length * factorial (avail.length - 1) := by
      obtain ⟨m, hm⟩ : ∃ m, avail.length = m + 1 := ⟨avail.length - 1, by omega⟩
      rw [hm, factorial_succ_eq]
      simp
    refine ⟨j + avail.length * k1, ?_, ?_, ?_⟩
    · rw [idGo]
      simp only [hw]
      rw [heq, idGo_mul es (avail.erase e) (1 * avail.length), hk1]
      simp only [Option.map_some', Option.some.injEq]
      ring
    · rw [hflen] at hk1lt
      calc j + avail.length * k1 < avail.length + avail.length * k1 := by omega
        _ = avail.length * (k1 + 1) := by ring
        _ ≤ avail.length * factorial (avail.length - 1) :=
            Nat.mul_le_mul_left _ (by omega)
        _ = factorial avail.length := hfact.symm
    · by_cases hk0 : j + avail.length * k1 = 0
      · have hj0 : j = 0 := by omega
        have hk10 : k1 = 0 := by
          rcases Nat.mul_eq_zero.mp (by omega : avail.length * k1 = 0) with h0 | h0
          · omega
          · exact h0
        rw [hk0, permFromIdGo_zero]
        have hes : avail.erase e = es := by
          rw [hk10, permFromIdGo_zero] at hk1dec
          exact hk1dec
        subst hj0
        cases avail with
        | nil => simp at hj
        | cons a as =>
          have ha : a = e := by simpa using hgetj
          have has : as = es := by
            have h3 : (a :: as).eraseIdx 0 = es := heq.trans hes
            simpa [List.eraseIdx] using h3
          rw [ha, has]
      · have hs : (j + avail.length * k1) % avail.length = j := by
          rw [Nat.add_mul_mod_self_left]
          exact Nat.mod_eq_of_lt hj
        rw [permFromIdGo_step _ avail (by omega) hlenpos j hj hs, hgetj]
        have hsub : (j + avail.length * k1 - j) / avail.length = k1 := by
          simp [Nat.mul_div_cancel_left _ hlenpos]
        rw [hsub]
        have hfil2 : avail.filter (fun x => x != e) = avail.erase e :=
          (hnd.erase_eq_filter e).symm
        rw [hfil2, hk1dec]

theorem permFromId_perm (n id : Nat) : (permFromId n id).Perm (List.range n) :=
  permFromIdGo_perm n (List.range n) (by simp) (List.nodup_range n) _

theorem permId_permFromId (n id : Nat) :
    permId (permFromId n id) = some (id % factorial n) := by
  unfold permId
  have hlen : (permFromId n id).length = n := by
    simpa using (permFromId_perm n id).length_eq
  rw [hlen]
  unfold permFromId
  rw [idGo_permFromIdGo n (List.range n) (by simp) (List.nodup_range n) _ 1]
  rw [List.length_range, one_mul, Nat.mod_mod_of_dvd _ (dvd_refl _)]

theorem permId_spec (n : Nat) (l : List Nat) (h : isPerm n l) :
    ∃ k, permId l = some k ∧ k < factorial n ∧ permFromId n k = l := by
  have hlen : l.length = n := by simpa using h.length_eq
  obtain ⟨k, hk, hklt, hkdec⟩ :=
    idGo_inverse l (List.range n) (List.nodup_range n) h
  refine ⟨k, ?_, by simpa using hklt, ?_⟩
  · rw [permId, hlen]; exact hk
  · rw [permFromId, Nat.mod_eq_of_lt (by simpa using hklt)]
    exact hkdec

/-- C5: for permutations `a` and `b` of the same length `n`, the sum defined
by `__add__` satisfies `(a + b).id() == (a.id() + b.id()) mod n!`, and the
permutation with `id() == 0` (`Permutation(n, 0)`) is a left and right
identity for `+`. -/
theorem c5_add_group_law (n : Nat) (a b : List Nat) (ha : isPerm n a) (hb : isPerm n b) :
    ∃ ia ib r,
      permId a = some ia ∧ permId b = some ib ∧
      addPerm a b = some r ∧
      permId r = some ((ia + ib) % factorial n) ∧
      permId (permFromId n 0) = some 0 ∧
      addPerm a (permFromId n 0) = some a ∧
      addPerm (permFromId n 0) a = some a := by
  have hlena : a.length = n := by simpa using ha.length_eq
  have hlenb : b.length = n := by simpa using hb.length_eq
  have hlene : (permFromId n 0).length = n := by
    simpa using (permFromId_perm n 0).length_eq
  obtain ⟨ia, hia, hialt, hiadec⟩ := permId_spec n a ha
  obtain ⟨ib, hib, hiblt, _⟩ := permId_spec n b hb
  have hide : permId (permFromId n 0) = some 0 := by
    rw [permId_permFromId]
    simp [Nat.zero_mod]
  refine ⟨ia, ib, permFromId n ((ia + ib) % factorial n), hia, hib, ?_, ?_, hide, ?_, ?_⟩
  · rw [addPerm, if_neg (show ¬a.length ≠ b.length by rw [hlena, hlenb]; simp)]
    simp only [hia, hib]
    rw [hlena, hlenb]
  · rw [permId_permFromId, Nat.mod_mod_of_dvd _ (dvd_refl _)]
  · rw [addPerm, if_neg (show ¬a.length ≠ (permFromId n 0).length by rw [hlena, hlene]; simp)]
    simp only [hia, hide]
    rw [hlena, hlene, Nat.add_zero, Nat.mod_eq_of_lt hialt, hiadec]
  · rw [addPerm, if_neg (show ¬(permFromId n 0).length ≠ a.length by rw [hlena, hlene]; simp)]
    simp only [hia, hide]
    rw [hlena, hlene, Nat.zero_add, Nat.mod_eq_of_lt hialt, hiadec]

theorem c5_add_group_law_witness :
    isPerm 2 [1, 0] ∧ isPerm 2 [0, 1] ∧
      ∃ ia ib r,
        permId [1, 0] = some ia ∧ permId [0, 1] = some ib ∧
        addPerm [1, 0] [0, 1] = some r ∧
        permId r = some ((ia + ib) % factorial 2) ∧
        permId (permFromId 2 0) = some 0 ∧
        addPerm [1, 0] (permFromId 2 0) = some [1, 0] ∧
        addPerm (permFromId 2 0) [1, 0] = some [1, 0] :=
  ⟨by decide, by decide, c5_add_group_law 2 [1, 0] [0, 1] (by decide) (by decide)⟩

theorem map_getD_range {α : Type} (p : List α) (d : α) :
    (List.range p.length).map (fun i => p.getD i d) = p := by
  apply List.ext_getElem (by simp)
  intro i h1 h2
  simp only [List.getElem_map, List.getElem_range]
  rw [List.getD_eq_getElem p d h2]

theorem order_eq_map_indexOf (n : Nat) (p : List Nat) (h : isPerm n p) :
    order p = (List.range n).map (fun v => List.indexOf v p) := by
  have hlen : p.length = n := by simpa using h.length_eq
  have hnd : p.Nodup := h.nodup_iff.mpr (List.nodup_range n)
  have hzip_eq : p.zip (List.range p.length)
      = (List.range n).map (fun i => (p.getD i 0, i)) := by
    apply List.ext_getElem (by simp [hlen])
    intro i h1 h2
    simp only [List.getElem_zip, List.getElem_map, List.getElem_range]
    rw [List.getD_eq_getElem p 0 (by simp at h1; omega)]
  have hmap_eq : (List.range n).map (fun i => (p.getD i 0, i))
      = p.map (fun v => (v, List.indexOf v p)) := by
    apply List.ext_getElem (by simp [hlen])
    intro i h1 h2
    simp only [List.getElem_map, List.getElem_range]
    have hip : i < p.length := by simpa using h2
    rw [List.getD_eq_getElem p 0 hip, List.indexOf_getElem hnd i hip]
  have hTzip : ((List.range n).map (fun v => (v, List.indexOf v p))).Perm
      (p.zip (List.range p.length)) := by
    rw [hzip_eq, hmap_eq]
    exact (h.map (fun v => (v, List.indexOf v p))).symm
  have hS_perm := sortPy_perm (fun a b : Nat × Nat => a.1 ≤ b.1)
    (p.zip (List.range p.length))
  have hS_sorted := sortPy_pairwise (fun a b : Nat × Nat => a.1 ≤ b.1)
    (fun a b c hab hbc => by simp at hab hbc ⊢; omega)
    (fun a b => by simp; omega)
    (p.zip (List.range p.length))
  have hfstS : ((sortPy (fun a b : Nat × Nat => a.1 ≤ b.1) (p.zip (List.range p.length))).map Prod.fst).Nodup := by
    have h1 : ((sortPy (fun a b : Nat × Nat => a.1 ≤ b.1) (p.zip (List.range p.length))).map Prod.fst).Perm p := by
      have := hS_perm.map Prod.fst
      rwa [List.map_fst_zip p _ (by simp)] at this
    exact h1.nodup_iff.mpr hnd
  have hSlt : List.Pairwise (fun a b : Nat × Nat => a.1 < b.1)
      (sortPy (fun a b : Nat × Nat => a.1 ≤ b.1) (p.zip (List.range p.length))) := by
    have hne : List.Pairwise (fun a b : Nat × Nat => a.1 ≠ b.1)
        (sortPy (fun a b : Nat × Nat => a.1 ≤ b.1) (p.zip (List.range p.length))) :=
      List.pairwise_map.mp hfstS
    have hle : List.Pairwise (fun a b : Nat × Nat => a.1 ≤ b.1)
        (sortPy (fun a b : Nat × Nat => a.1 ≤ b.1) (p.zip (List.range p.length))) := by
      refine hS_sorted.imp ?_
      intro a b hab
      simpa using hab
    exact (hle.and hne).imp (fun hab => lt_of_le_of_ne hab.1 hab.2)
  have hTlt : List.Pairwise (fun a b : Nat × Nat => a.1 < b.1)
      ((List.range n).map (fun v => (v, List.indexOf v p))) := by
    rw [List.pairwise_map]
    exact List.pairwise_lt_range n
  haveI : IsAntisymm (Nat × Nat) (fun a b => a.1 < b.1) :=
    ⟨fun a b h1 h2 => absurd h2 (by omega)⟩
  have hST : (sortPy (fun a b : Nat × Nat => a.1 ≤ b.1) (p.zip (List.range p.length)))
      = (List.range n).map (fun v => (v, List.indexOf v p)) :=
    List.eq_of_perm_of_sorted (hS_perm.trans hTzip.symm) hSlt hTlt
  rw [order, hST, List.map_map]
  rfl

/-- C6: for every permutation `p` of size `n`, `q = p.inverse()` (computed
as the argsort `order(elements)`) satisfies `q[p[i]] == i` for every
`0 ≤ i < n`. -/
theorem c6_inverse (n : Nat) (p : List Nat) (h : isPerm n p) :
    (inversePerm p).length = n ∧
      ∀ i, i < n → (inversePerm p).getD (p.getD i 0) 0 = i := by
  have hlen : p.length = n := by simpa using h.length_eq
  have hnd : p.Nodup := h.nodup_iff.mpr (List.nodup_range n)
  rw [inversePerm, order_eq_map_indexOf n p h]
  constructor
  · simp
  · intro i hi
    have hilen : i < p.length := by omega
    have hpi : p.getD i 0 < n := by
      rw [List.getD_eq_getElem p 0 hilen]
      have : p[i] ∈ List.range n := h.subset (List.getElem_mem hilen)
      exact List.mem_range.mp this
    rw [List.getD_eq_getElem _ _ (by simpa using hpi)]
    simp only [List.getElem_map, List.getElem_range]
    rw [List.getD_eq_getElem p 0 hilen]
    exact List.indexOf_getElem hnd i hilen

theorem c6_inverse_witness :
    isPerm 3 [2, 0, 1] ∧
      ((inversePerm [2, 0, 1]).length = 3 ∧
        ∀ i, i < 3 → (inversePerm [2, 0, 1]).getD ([2, 0, 1].getD i 0) 0 = i) :=
  ⟨by decide, c6_inverse 3 [2, 0, 1] (by decide)⟩

/-! The `Tree.swap` operation.  The Python method
`Tree.swap(self, index)` selects `[self.children[i] for i in index]`
(raising `IndexError`, modelled `none`, on an out-of-range position) and
then executes
`for c, i in zip(selected, sorted(index)): self.children[i] = c`. -/

/-- `Tree.swap` as an operation on the children list. -/
def swap {α : Type} (cs : List α) (index : List Nat) : Option (List α) :=
  (index.mapM (fun i => cs[i]?)).map
    (fun sel =>
      (sel.zip (sortPy (fun a b => a ≤ b) index)).foldl
        (fun l p => l.set p.2 p.1) cs)

/-- `Tree.swap` restricted to valid child positions (the only way the
library itself calls it); same selection and write-back as `swap`. -/
def swapT {α : Type} [Inhabited α] (cs : List α) (index : List Nat) : List α :=
  ((index.map (fun i => cs.getD i default)).zip (sortPy (fun a b => a ≤ b) index)).foldl
    (fun l p => l.set p.2 p.1) cs

theorem mapM_getElem_eq_some {α : Type} [Inhabited α] :
    ∀ (index : List Nat) (cs : List α), (∀ i ∈ index, i < cs.length) →
      index.mapM (fun i => cs[i]?) = some (index.map (fun i => cs.getD i default)) := by
  intro index
  induction index with
  | nil => intro cs _; rfl
  | cons i idx ih =>
    intro cs h
    have hi : i < cs.length := h i (List.mem_cons_self i idx)
    rw [List.mapM_cons, List.getElem?_eq_getElem hi,
      ih cs (fun j hj => h j (List.mem_cons_of_mem i hj))]
    simp [List.getD_eq_getElem cs default hi, List.getElem?_eq_getElem hi]

theorem swap_eq_swapT {α : Type} [Inhabited α] (cs : List α) (index : List Nat)
    (h : ∀ i ∈ index, i < cs.length) :
    swap cs index = some (swapT cs index) := by
  rw [swap, mapM_getElem_eq_some index cs h]
  rfl

theorem swap_isSome_iff {α : Type} (cs : List α) (index : List Nat) :
    (swap cs index).isSome = true ↔ ∀ i ∈ index, i < cs.length := by
  rw [swap]
  have hm : ∀ (idx : List Nat), (idx.mapM (fun i => cs[i]?)).isSome = true
      ↔ ∀ i ∈ idx, i < cs.length := by
    intro idx
    induction idx with
    | nil => simp only [List.mapM_nil]; simp
    | cons i idx ih =>
      rw [List.mapM_cons]
      constructor
      · intro h
        match hx : cs[i]? with
        | none =>
          rw [hx] at h
          simp at h
        | some v =>
          rw [hx] at h
          match hy : idx.mapM (fun i => cs[i]?) with
          | none => rw [hy] at h; simp at h
          | some sel =>
            intro j hj
            rcases List.mem_cons.mp hj with hj | hj
            · subst hj
              by_contra hni
              rw [List.getElem?_eq_none (by omega)] at hx
              exact absurd hx (by simp)
            · exact (ih.mp (by rw [hy]; rfl)) j hj
      · intro h
        have hi : i < cs.length := h i (List.mem_cons_self i idx)
        rw [List.getElem?_eq_getElem hi]
        match hy : idx.mapM (fun i => cs[i]?) with
        | none =>
          exfalso
          have := ih.mpr (fun j hj => h j (List.mem_cons_of_mem i hj))
          rw [hy] at this
          simp at this
        | some sel => rfl
  have hms : ∀ (x : Option (List α)) (f : List α → List α),
      (Option.map f x).isSome = x.isSome := by
    intro x f; cases x <;> rfl
  rw [hms]
  exact hm index

theorem foldl_set_length {α : Type} :
    ∀ (pairs : List (α × Nat)) (cs : List α),
      (pairs.foldl (fun l p => l.set p.2 p.1) cs).length = cs.length := by
  intro pairs
  induction pairs with
  | nil => intro cs; rfl
  | cons q rest ih =>
    intro cs
    rw [List.foldl_cons, ih, List.length_set]

theorem foldl_set_frame {α : Type} :
    ∀ (pairs : List (α × Nat)) (cs : List α) (j : Nat),
      (∀ p ∈ pairs, p.2 ≠ j) →
      (pairs.foldl (fun l p => l.set p.2 p.1) cs)[j]? = cs[j]? := by
  intro pairs
  induction pairs with
  | nil => intro cs j _; rfl
  | cons q rest ih =>
    intro cs j h
    rw [List.foldl_cons, ih _ j (fun p hp => h p (List.mem_cons_of_mem q hp)),
      List.getElem?_set_ne (h q (List.mem_cons_self q rest))]

theorem foldl_set_hit {α : Type} :
    ∀ (pairs : List (α × Nat)) (cs : List α),
      (pairs.map Prod.snd).Nodup →
      (∀ p ∈ pairs, p.2 < cs.length) →
      ∀ p ∈ pairs, (pairs.foldl (fun l q => l.set q.2 q.1) cs)[p.2]? = some p.1 := by
  intro pairs
  induction pairs with
  | nil => intro cs _ _ p hp; simp at hp
  | cons q rest ih =>
    intro cs hnd hlt p hp
    have hndc : (q.2 :: rest.map Prod.snd).Nodup := by
      rw [← List.map_cons]; exact hnd
    have hnd2 := List.nodup_cons.mp hndc
    rw [List.foldl_cons]
    rcases List.mem_cons.mp hp with hp1 | hp2
    · subst hp1
      have hfr : ∀ p2 ∈ rest, p2.2 ≠ p.2 := by
        intro p2 h2 he
        exact hnd2.1 (he ▸ List.mem_map_of_mem Prod.snd h2)
      rw [foldl_set_frame rest _ p.2 hfr,
        List.getElem?_set_self (hlt p (List.mem_cons_self p rest))]
    · apply ih _ hnd2.2
      · intro p2 h2
        rw [List.length_set]
        exact hlt p2 (List.mem_cons_of_mem q h2)
      · exact hp2

theorem swapT_length {α : Type} [Inhabited α] (cs : List α) (index : List Nat) :
    (swapT cs index).length = cs.length :=
  foldl_set_length _ _

theorem map_snd_zip_sel {α : Type} [Inhabited α] (cs : List α) (index : List Nat) :
    ((index.map (fun i => cs.getD i default)).zip
        (sortPy (fun a b => a ≤ b) index)).map Prod.snd
      = sortPy (fun a b => a ≤ b) index := by
  apply List.map_snd_zip
  rw [List.length_map, (sortPy_perm (fun a b => a ≤ b) index).length_eq]

theorem swapT_frame {α : Type} [Inhabited α] (cs : List α) (index : List Nat) (j : Nat)
    (hj : j ∉ index) : (swapT cs index)[j]? = cs[j]? := by
  apply foldl_set_frame
  intro p hp
  have hmem : p.2 ∈ sortPy (fun a b => a ≤ b) index := by
    have := List.mem_map_of_mem Prod.snd hp
    rwa [map_snd_zip_sel] at this
  intro he
  exact hj (he ▸ (sortPy_perm (fun a b => a ≤ b) index).subset hmem)

theorem swapT_hit {α : Type} [Inhabited α] (cs : List α) (index : List Nat)
    (hnd : index.Nodup) (hval : ∀ i ∈ index, i < cs.length)
    (t : Nat) (ht : t < index.length) :
    (swapT cs index)[(sortPy (fun a b => a ≤ b) index).getD t 0]?
      = some (cs.getD (index.getD t 0) default) := by
  have hps := sortPy_perm (fun a b => a ≤ b) index
  have hlps : (sortPy (fun a b => a ≤ b) index).length = index.length := hps.length_eq
  have hz : t < ((index.map (fun i => cs.getD i default)).zip
      (sortPy (fun a b => a ≤ b) index)).length := by
    rw [List.length_zip, List.length_map, hlps]
    omega
  have hhit := foldl_set_hit
    ((index.map (fun i => cs.getD i default)).zip (sortPy (fun a b => a ≤ b) index))
    cs
    (by rw [map_snd_zip_sel]; exact hps.nodup_iff.mpr hnd)
    (by
      intro p hp
      have hmem : p.2 ∈ sortPy (fun a b => a ≤ b) index := by
        have := List.mem_map_of_mem Prod.snd hp
        rwa [map_snd_zip_sel] at this
      exact hval _ (hps.subset hmem))
    _ (List.getElem_mem hz)
  rw [List.getElem_zip] at hhit
  simp only [List.getElem_map] at hhit
  rw [swapT]
  rw [List.getD_eq_getElem (sortPy (fun a b => a ≤ b) index) 0
      (show t < (sortPy (fun a b => a ≤ b) index).length by omega),
    List.getD_eq_getElem index 0 ht]
  exact hhit

/-- Auxiliary position map used to show that `Tree.swap` with distinct valid
positions permutes the children: positions in `sorted(index)` receive the
child previously at the corresponding listed position, all others keep
theirs. -/
def swapSigma (index : List Nat) (j : Nat) : Nat :=
  if j ∈ sortPy (fun a b => a ≤ b) index then
    index.getD ((sortPy (fun a b => a ≤ b) index).indexOf j) 0
  else j

theorem swapSigma_mem (index : List Nat) (j : Nat)
    (hj : j ∈ sortPy (fun a b => a ≤ b) index) : swapSigma index j ∈ index := by
  have hps := sortPy_perm (fun a b => a ≤ b) index
  have hlt : (sortPy (fun a b => a ≤ b) index).indexOf j
      < (sortPy (fun a b => a ≤ b) index).length := List.indexOf_lt_length.mpr hj
  have hlt2 : (sortPy (fun a b => a ≤ b) index).indexOf j < index.length := by
    rwa [hps.length_eq] at hlt
  rw [swapSigma, if_pos hj, List.getD_eq_getElem index 0 hlt2]
  exact List.getElem_mem hlt2

theorem swapSigma_not_mem (index : List Nat) (j : Nat)
    (hj : j ∉ sortPy (fun a b => a ≤ b) index) : swapSigma index j = j := by
  rw [swapSigma, if_neg hj]

theorem swapT_getElem_sigma {α : Type} [Inhabited α] (cs : List α) (index : List Nat)
    (hnd : index.Nodup) (hval : ∀ i ∈ index, i < cs.length) (j : Nat) :
    (swapT cs index)[j]? = cs[swapSigma index j]? := by
  have hps := sortPy_perm (fun a b => a ≤ b) index
  by_cases hj : j ∈ sortPy (fun a b => a ≤ b) index
  · have hlt : (sortPy (fun a b => a ≤ b) index).indexOf j
        < (sortPy (fun a b => a ≤ b) index).length := List.indexOf_lt_length.mpr hj
    have hlt2 : (sortPy (fun a b => a ≤ b) index).indexOf j < index.length := by
      rwa [hps.length_eq] at hlt
    have hhit := swapT_hit cs index hnd hval _ hlt2
    have hpsget : (sortPy (fun a b => a ≤ b) index).getD
        ((sortPy (fun a b => a ≤ b) index).indexOf j) 0 = j := by
      rw [List.getD_eq_getElem _ 0 hlt]
      exact List.getElem_indexOf hlt
    rw [hpsget] at hhit
    rw [hhit, swapSigma, if_pos hj]
    have hmem : index.getD ((sortPy (fun a b => a ≤ b) index).indexOf j) 0 ∈ index := by
      rw [List.getD_eq_getElem index 0 hlt2]
      exact List.getElem_mem hlt2
    have hidxlt : index.getD ((sortPy (fun a b => a ≤ b) index).indexOf j) 0 < cs.length :=
      hval _ hmem
    rw [List.getElem?_eq_getElem hidxlt, List.getD_eq_getElem cs default hidxlt]
  · rw [swapT_frame cs index j (fun hc => hj (hps.symm.subset hc)),
      swapSigma_not_mem index j hj]

theorem swapT_perm {α : Type} [Inhabited α] (cs : List α) (index : List Nat)
    (hnd : index.Nodup) (hval : ∀ i ∈ index, i < cs.length) :
    (swapT cs index).Perm cs := by
  have hps := sortPy_perm (fun a b => a ≤ b) index
  have hσlt : ∀ j, j < cs.length → swapSigma index j < cs.length := by
    intro j hjn
    by_cases hj : j ∈ sortPy (fun a b => a ≤ b) index
    · exact hval _ (swapSigma_mem index j hj)
    · rw [swapSigma_not_mem index j hj]; exact hjn
  have hσinj : ∀ j1 ∈ List.range cs.length, ∀ j2 ∈ List.range cs.length,
      swapSigma index j1 = swapSigma index j2 → j1 = j2 := by
    intro j1 _ j2 _ he
    by_cases hj1 : j1 ∈ sortPy (fun a b => a ≤ b) index <;>
      by_cases hj2 : j2 ∈ sortPy (fun a b => a ≤ b) index
    · have hl1 : (sortPy (fun a b => a ≤ b) index).indexOf j1
          < (sortPy (fun a b => a ≤ b) index).length := List.indexOf_lt_length.mpr hj1
      have hl2 : (sortPy (fun a b => a ≤ b) index).indexOf j2
          < (sortPy (fun a b => a ≤ b) index).length := List.indexOf_lt_length.mpr hj2
      have hl1i : (sortPy (fun a b => a ≤ b) index).indexOf j1 < index.length := by
        rwa [hps.length_eq] at hl1
      have hl2i : (sortPy (fun a b => a ≤ b) index).indexOf j2 < index.length := by
        rwa [hps.length_eq] at hl2
      rw [swapSigma, if_pos hj1, swapSigma, if_pos hj2,
        List.getD_eq_getElem index 0 hl1i, List.getD_eq_getElem index 0 hl2i] at he
      have hidx := (hnd.getElem_inj_iff).mp he
      have e1 : (sortPy (fun a b => a ≤ b) index)[(sortPy (fun a b => a ≤ b) index).indexOf j1] = j1 := List.getElem_indexOf hl1
      have e2 : (sortPy (fun a b => a ≤ b) index)[(sortPy (fun a b => a ≤ b) index).indexOf j2] = j2 := List.getElem_indexOf hl2
      rw [← e1, ← e2]
      simp only [hidx]
    · exfalso
      rw [swapSigma_not_mem index j2 hj2] at he
      exact hj2 (hps.symm.subset (he ▸ swapSigma_mem index j1 hj1))
    · exfalso
      rw [swapSigma_not_mem index j1 hj1] at he
      exact hj1 (hps.symm.subset (he ▸ swapSigma_mem index j2 hj2))
    · rwa [swapSigma_not_mem index j1 hj1, swapSigma_not_mem index j2 hj2] at he
  have hσlist : (((List.range cs.length).map (swapSigma index))).Perm (List.range cs.length) := by
    have hnd2 : ((List.range cs.length).map (swapSigma index)).Nodup :=
      List.Nodup.map_on hσinj (List.nodup_range cs.length)
    have hsub : ((List.range cs.length).map (swapSigma index)) ⊆ List.range cs.length := by
      intro x hx
      obtain ⟨j, hj, he⟩ := List.mem_map.mp hx
      rw [← he]
      exact List.mem_range.mpr (hσlt j (List.mem_range.mp hj))
    exact (hnd2.subperm hsub).perm_of_length_le (by simp)
  have hr : swapT cs index
      = ((List.range cs.length).map (swapSigma index)).map (fun v => cs.getD v default) := by
    rw [List.map_map]
    apply List.ext_getElem
    · rw [swapT_length]; simp
    · intro j h1 h2
      have hjn : j < cs.length := by rwa [swapT_length] at h1
      have hp := swapT_getElem_sigma cs index hnd hval j
      have hσjn : swapSigma index j < cs.length := hσlt j hjn
      rw [List.getElem?_eq_getElem (by rwa [swapT_length] : j < (swapT cs index).length),
        List.getElem?_eq_getElem hσjn] at hp
      simp only [Option.some.injEq] at hp
      rw [hp]
      simp only [Function.comp, List.getElem_map, List.getElem_range]
      rw [List.getD_eq_getElem cs default hσjn]
  rw [hr]
  have hmap := hσlist.map (fun v => cs.getD v default)
  rwa [map_getD_range cs default] at hmap

/-- C7 counterexample: `Tree.swap` performs no validation at all.  The order
`[1]` is not a complete index of a 2-child node (`isindex [1] = false`), yet
`swap` does not raise `InvalidArgument` (it returns a result rather than an
exception). -/
theorem c7_counterexample :
    isindex [1] = false ∧ swap [10, 20] [1] = some [10, 20] := by
  constructor
  · decide
  · decide

/-- C7 (amended): `Tree.swap(order)` never checks that `order` is a complete
index; it succeeds (reordering the selected children as described in C10)
exactly when every listed position is a valid child position, and the only
failure it can raise is an `IndexError` (modelled `none`) for an
out-of-range position. -/
theorem c7_swap_no_invalid_argument {α : Type} (cs : List α) (index : List Nat) :
    (swap cs index).isSome = true ↔ ∀ i ∈ index, i < cs.length :=
  swap_isSome_iff cs index

/-- C10: for a list of distinct valid child positions (not necessarily
complete), `Tree.swap` keeps every child at a position not listed in
`index`, moves the selected children to the sorted selected positions in
the listed order, and leaves the multiset of children unchanged. -/
theorem c10_swap_frame_effect {α : Type} [Inhabited α] (cs : List α) (index : List Nat)
    (hnd : index.Nodup) (hval : ∀ i ∈ index, i < cs.length) :
    ∃ r, swap cs index = some r ∧
      r.length = cs.length ∧
      (∀ j, j < cs.length → j ∉ index → r[j]? = cs[j]?) ∧
      (∀ t, t < index.length →
        r[(sortPy (fun a b => a ≤ b) index).getD t 0]? = cs[index.getD t 0]?) ∧
      r.Perm cs := by
  refine ⟨swapT cs index, swap_eq_swapT cs index hval, swapT_length cs index,
    ?_, ?_, swapT_perm cs index hnd hval⟩
  · intro j _ hj
    exact swapT_frame cs index j hj
  · intro t ht
    rw [swapT_hit cs index hnd hval t ht]
    have hmem : index.getD t 0 ∈ index := by
      rw [List.getD_eq_getElem index 0 ht]
      exact List.getElem_mem ht
    have hlt : index.getD t 0 < cs.length := hval _ hmem
    rw [List.getElem?_eq_getElem hlt, List.getD_eq_getElem cs default hlt]

theorem c10_swap_frame_effect_witness :
    ([2, 0] : List Nat).Nodup ∧ (∀ i ∈ ([2, 0] : List Nat), i < ([5, 6, 7] : List Nat).length) ∧
      ∃ r, swap [5, 6, 7] [2, 0] = some r ∧
        r.length = ([5, 6, 7] : List Nat).length ∧
        (∀ j, j < ([5, 6, 7] : List Nat).length → j ∉ ([2, 0] : List Nat) → r[j]? = ([5, 6, 7] : List Nat)[j]?) ∧
        (∀ t, t < ([2, 0] : List Nat).length →
          r[(sortPy (fun a b => a ≤ b) ([2, 0] : List Nat)).getD t 0]?
            = ([5, 6, 7] : List Nat)[([2, 0] : List Nat).getD t 0]?) ∧
        r.Perm [5, 6, 7] :=
  ⟨by decide, by decide, c10_swap_frame_effect [5, 6, 7] [2, 0] (by decide) (by decide)⟩

/-! The textual round-trip of a permutation.  `Permutation.__str__` renders
the elements as a colon-separated decimal list
(`':'.join([str(i) for i in self.elements])`), and the library parses it
back with `Permutation([int(i) for i in p.split(':')])` (tmap/main.py).
Strings are modelled as `List Char`. -/

/-- Decimal digit character, `chr(48 + d)`. -/
def digitChar (d : Nat) : Char := Char.ofNat (48 + d)

/-- Python `str(n)` for a natural number: its decimal digit characters. -/
def natStr (n : Nat) : List Char :=
  if n = 0 then ['0'] else ((Nat.digits 10 n).map digitChar).reverse

/-- Python `int(s)` on a (digit-only) string: left fold of decimal digits. -/
def parseNat (cs : List Char) : Nat :=
  cs.foldl (fun a c => 10 * a + (c.toNat - 48)) 0

/-- Python `':'.join(parts)`. -/
def joinColon : List (List Char) → List Char
  | [] => []
  | [p] => p
  | p :: ps => p ++ ':' :: joinColon ps

/-- Python `s.split(':')`. -/
def splitColon : List Char → List (List Char)
  | [] => [[]]
  | c :: cs =>
    if c = ':' then [] :: splitColon cs
    else
      match splitColon cs with
      | [] => [[c]]
      | p :: ps => (c :: p) :: ps

/-- `Permutation.__str__`. -/
def strPerm (l : List Nat) : List Char := joinColon (l.map natStr)

/-- The parse `[int(i) for i in p.split(':')]` used to read a permutation
string back (tmap/main.py line 107). -/
def parsePerm (s : List Char) : List Nat := (splitColon s).map parseNat

theorem digitChar_toNat (d : Nat) (h : d < 10) : (digitChar d).toNat = 48 + d := by
  rw [digitChar]
  interval_cases d <;> decide

theorem digitChar_ne_colon (d : Nat) (h : d < 10) : digitChar d ≠ ':' := by
  rw [digitChar]
  interval_cases d <;> decide

theorem foldl_digits (ds : List Nat) :
    ∀ acc : Nat, (∀ d ∈ ds, d < 10) →
      ((ds.map digitChar).reverse).foldl (fun a c => 10 * a + (c.toNat - 48)) acc
        = acc * 10 ^ ds.length + Nat.ofDigits 10 ds := by
  induction ds with
  | nil => intro acc _; simp [Nat.ofDigits]
  | cons d ds ih =>
    intro acc h
    have hd : d < 10 := h d (List.mem_cons_self d ds)
    rw [List.map_cons, List.reverse_cons, List.foldl_append,
      ih acc (fun x hx => h x (List.mem_cons_of_mem d hx))]
    simp only [List.foldl_cons, List.foldl_nil]
    rw [digitChar_toNat d hd, Nat.ofDigits_cons]
    rw [List.length_cons, pow_succ]
    have : 48 + d - 48 = d := by omega
    rw [this]
    ring

theorem parseNat_natStr (n : Nat) : parseNat (natStr n) = n := by
  rw [natStr]
  by_cases h : n = 0
  · rw [if_pos h, h]
    decide
  · rw [if_neg h, parseNat,
      foldl_digits (Nat.digits 10 n) 0 (fun d hd => Nat.digits_lt_base (by omega) hd)]
    simp [Nat.ofDigits_digits]

theorem natStr_ne_nil (n : Nat) : natStr n ≠ [] := by
  rw [natStr]
  by_cases h : n = 0
  · rw [if_pos h]; simp
  · rw [if_neg h]
    simp [Nat.digits_ne_nil_iff_ne_zero.mpr h]

theorem colon_not_mem_natStr (n : Nat) : ':' ∉ natStr n := by
  rw [natStr]
  by_cases h : n = 0
  · rw [if_pos h]; decide
  · rw [if_neg h]
    intro hmem
    rw [List.mem_reverse] at hmem
    obtain ⟨d, hd, he⟩ := List.mem_map.mp hmem
    exact digitChar_ne_colon d (Nat.digits_lt_base (by omega) hd) he

theorem splitColon_single : ∀ (p : List Char), ':' ∉ p → splitColon p = [p] := by
  intro p
  induction p with
  | nil => intro _; rfl
  | cons c p ih =>
    intro h
    have hc : ¬c = ':' := fun he => h (he ▸ List.mem_cons_self c p)
    rw [splitColon, if_neg hc, ih (fun hm => h (List.mem_cons_of_mem c hm))]

theorem splitColon_append :
    ∀ (p t : List Char), ':' ∉ p → splitColon (p ++ ':' :: t) = p :: splitColon t := by
  intro p
  induction p with
  | nil =>
    intro t _
    rw [List.nil_append, splitColon, if_pos rfl]
  | cons c p ih =>
    intro t h
    have hc : ¬c = ':' := fun he => h (he ▸ List.mem_cons_self c p)
    rw [List.cons_append, splitColon, if_neg hc,
      ih t (fun hm => h (List.mem_cons_of_mem c hm))]

theorem splitColon_joinColon :
    ∀ (ps : List (List Char)), ps ≠ [] → (∀ p ∈ ps, ':' ∉ p) →
      splitColon (joinColon ps) = ps := by
  intro ps
  induction ps with
  | nil => intro h _; exact absurd rfl h
  | cons p ps ih =>
    intro _ h
    cases ps with
    | nil => exact splitColon_single p (h p (List.mem_cons_self p []))
    | cons q rest =>
      have hj : joinColon (p :: q :: rest) = p ++ ':' :: joinColon (q :: rest) := rfl
      rw [hj, splitColon_append p _ (h p (List.mem_cons_self p _)),
        ih (List.cons_ne_nil q rest) (fun x hx => h x (List.mem_cons_of_mem p hx))]

theorem isindex_of_isPerm (n : Nat) (l : List Nat) (h : isPerm n l) : isindex l = true := by
  have hlen : l.length = n := by simpa using h.length_eq
  rw [isindex, List.all_eq_true]
  intro i hi
  rw [List.elem_iff]
  exact h.symm.subset (by rw [hlen] at hi; exact hi)

/-- C9: `str(p)` is the colon-separated list of the `n ≥ 1` elements, and
splitting on `':'`, parsing each piece as an integer and rebuilding through
the `Permutation` constructor yields a permutation equal to `p`. -/
theorem c9_str_roundtrip (n : Nat) (l : List Nat) (h : isPerm n l) (hn : 1 ≤ n) :
    parsePerm (strPerm l) = l ∧ fromList (parsePerm (strPerm l)) = some l := by
  have hlen : l.length = n := by simpa using h.length_eq
  have hne : l.map natStr ≠ [] := by
    intro he
    have h0 : l = [] := by simpa using he
    rw [h0] at hlen
    simp only [List.length_nil] at hlen
    omega
  have hparse : parsePerm (strPerm l) = l := by
    rw [parsePerm, strPerm,
      splitColon_joinColon (l.map natStr) hne
        (by
          intro p hp
          obtain ⟨v, _, he⟩ := List.mem_map.mp hp
          rw [← he]
          exact colon_not_mem_natStr v),
      List.map_map]
    have : ∀ x ∈ l, (parseNat ∘ natStr) x = x := fun x _ => parseNat_natStr x
    rw [List.map_congr_left this]
    simp
  refine ⟨hparse, ?_⟩
  rw [hparse, fromList, if_pos (isindex_of_isPerm n l h)]

theorem c9_str_roundtrip_witness :
    isPerm 2 [1, 0] ∧ 1 ≤ 2 ∧
      (parsePerm (strPerm [1, 0]) = [1, 0] ∧
        fromList (parsePerm (strPerm [1, 0])) = some [1, 0]) :=
  ⟨by decide, by decide, c9_str_roundtrip 2 [1, 0] (by decide) (by decide)⟩


/-! Trees (tmap/tree.py) and tree permutations (tmap/permutation.py).
A tree node is its list of children; a node is a leaf iff it has no
children.  The leaves-first `TreeIterator` walk visits every node of a
subtree before the node itself, children left to right, so the traversal
of `node cs` is the concatenation of the traversals of `cs` followed by
the node itself. -/

inductive PTree where
  | node : List PTree → PTree

mutual
/-- Arities of the nodes of a subtree in `TreeIterator` (leaves-first)
order; `Tree.is_equal` compares exactly this sequence. -/
def travArities : PTree → List Nat
  | .node cs => travAritiesL cs ++ [cs.length]
def travAritiesL : List PTree → List Nat
  | [] => []
  | c :: cs => travArities c ++ travAritiesL cs
end

/-- `Tree.is_equal(self, other)`: zip the two traversals (truncating at the
shorter one) and report `False` iff some zipped pair has different arities. -/
def isEqual (a b : PTree) : Bool :=
  ((travArities a).zip (travArities b)).all (fun p => p.1 == p.2)

/-- The `subtrees` list built by `TreePermutation._tag_nodes_`: scan the
children, appending each child that `is_equal` no previously kept one. -/
def subtreeReps (cs : List PTree) : List PTree :=
  cs.foldl (fun reps c => if reps.any (fun t => isEqual c t) then reps else reps ++ [c]) []

/-- `node.grouped_children` as computed by `_tag_nodes_`:
`[[i for (i,c) in zip(range(len(children)), children) if c.is_equal(t)] for t in subtrees]`. -/
def groupedChildren (cs : List PTree) : List (List Nat) :=
  (subtreeReps cs).map (fun t =>
    ((List.range cs.length).zip cs).filterMap
      (fun ic => if isEqual ic.2 t then some ic.1 else none))

/-- A tree node after `TreePermutation._tag_()`: its `permutation_index`,
its `grouped_children` and its tagged children. -/
inductive TTree where
  | node : Nat → List (List Nat) → List TTree → TTree

instance : Inhabited TTree := ⟨TTree.node 0 [] []⟩

/-- `node.permutation_index`. -/
def pidx : TTree → Nat
  | .node p _ _ => p

/-- Python `min` over the children's `permutation_index` (nonempty list). -/
def minPidx : List TTree → Nat
  | [] => 0
  | c :: cs => cs.foldl (fun m x => min m (pidx x)) (pidx c)

mutual
/-- `TreePermutation._tag_()` together with `_tag_nodes_`: leaves receive
the permutation elements in leaves-first order; an internal node receives
the minimum `permutation_index` of its children and its `grouped_children`
partitioning.  The unconsumed element suffix is returned alongside. -/
def tagTree : PTree → List Nat → TTree × List Nat
  | .node [], es => (TTree.node (es.headD 0) [] [], es.tail)
  | .node (c :: cs), es =>
      (TTree.node (minPidx (tagTreeL (c :: cs) es).1) (groupedChildren (c :: cs))
        (tagTreeL (c :: cs) es).1,
       (tagTreeL (c :: cs) es).2)
def tagTreeL : List PTree → List Nat → List TTree × List Nat
  | [], es => ([], es)
  | c :: cs, es =>
      ((tagTree c es).1 :: (tagTreeL cs (tagTree c es).2).1,
       (tagTreeL cs (tagTree c es).2).2)
end

/-- `TreePermutation(tree, …)` after tagging. -/
def tagT (t : PTree) (es : List Nat) : TTree := (tagTree t es).1

mutual
/-- `TreePermutation._update_elements_`: the `permutation_index` of the
leaves in traversal order. -/
def elements : TTree → List Nat
  | .node p _ [] => [p]
  | .node _ _ (c :: cs) => elementsL (c :: cs)
def elementsL : List TTree → List Nat
  | [] => []
  | c :: cs => elements c ++ elementsL cs
end

/-- Python tuple comparison on the `(permutation_index, i)` pairs sorted by
`TreePermutation.canonical`. -/
def pairLe (a b : Nat × Nat) : Bool :=
  a.1 < b.1 || (a.1 == b.1 && a.2 ≤ b.2)

/-- One group step of `canonical`:
`srted = sorted([(children[i].permutation_index, i) for i in g])`, then the
children are reordered by `swap([s[1] for s in srted])`. -/
def sortGroup (cs : List TTree) (g : List Nat) : List Nat :=
  (sortPy pairLe (g.map (fun i => (pidx (cs.getD i default), i)))).map (fun s => s.2)

/-- The per-node part of `canonical`: fold the group sorts over
`grouped_children`, each one calling `Tree.swap`. -/
def canonNode (cs : List TTree) (gs : List (List Nat)) : List TTree :=
  gs.foldl (fun l g => swapT l (sortGroup l g)) cs

mutual
/-- `TreePermutation.canonical()`: every node (children strictly before
their parent, as in the leaves-first node list it iterates) sorts each of
its `grouped_children` groups by `permutation_index`; tags are not
recomputed. -/
def canonicalT : TTree → TTree
  | .node p gs cs => TTree.node p gs (canonNode (canonicalL cs) gs)
def canonicalL : List TTree → List TTree
  | [] => []
  | c :: cs => canonicalT c :: canonicalL cs
end

/-- One outcome of the `random.shuffle(g)` calls of `shuffle_nodes`: for
every node, the shuffled version of each of its groups, and the outcomes
for its children. -/
inductive Choice where
  | node : List (List Nat) → List Choice → Choice

mutual
/-- `TreePermutation.shuffle_nodes()` at a fixed random outcome: for every
node (children before parents in iteration order), each group `g` is
replaced in place by its shuffled version and `Tree.swap` is applied to
it; tags are not recomputed, so the stored `grouped_children` become the
shuffled lists. -/
def shuffleNodes : TTree → Choice → TTree
  | .node p _ cs, .node gps cc =>
      TTree.node p gps (gps.foldl (fun l g => swapT l g) (shuffleNodesL cs cc))
def shuffleNodesL : List TTree → List Choice → List TTree
  | [], _ => []
  | c :: cs, [] => c :: cs
  | c :: cs, k :: ks => shuffleNodes c k :: shuffleNodesL cs ks
end

mutual
/-- A `Choice` is a legitimate outcome of `shuffle_nodes` for a tagged
tree: shapes match and every shuffled group is a permutation of the
corresponding stored group. -/
def choiceOk : TTree → Choice → Bool
  | .node _ gs cs, .node gps cc =>
      gs.length == gps.length
        && (gs.zip gps).all (fun p => p.2.isPerm p.1)
        && cs.length == cc.length
        && choiceOkL cs cc
def choiceOkL : List TTree → List Choice → Bool
  | [], [] => true
  | c :: cs, k :: ks => choiceOk c k && choiceOkL cs ks
  | _, _ => false
end

mutual
/-- Number of leaves of a tree (`TreeIterator(tree, is_leaf).count()`). -/
def leafCount : PTree → Nat
  | .node [] => 1
  | .node (c :: cs) => leafCountL (c :: cs)
def leafCountL : List PTree → Nat
  | [] => 0
  | c :: cs => leafCount c + leafCountL cs
end

/-- The tree `Tree.from_list([2, 0, [1]])`: a root whose children are a
2-leaf node, a leaf, and a unary chain down to one leaf (4 leaves in
total).  Because `is_equal` truncates at the shorter traversal, the leaf
child compares equal to both other children while those two compare
different, so the root's `grouped_children` are the overlapping groups
`[[0, 1], [1, 2]]`. -/
def mixedTree : PTree :=
  PTree.node [PTree.node [PTree.node [], PTree.node []], PTree.node [],
    PTree.node [PTree.node [PTree.node []]]]

/-- `TreePermutation(mixedTree, …)` whose elements are the permutation
`[1, 2, 3, 0]` of `range(4)`. -/
def mixedPerm : TTree := tagT mixedTree [1, 2, 3, 0]

/-- A concrete outcome of the random reorderings of `shuffle_nodes` on
`mixedPerm`: the root's two groups are shuffled to `[1, 0]` and `[2, 1]`,
every other group keeps its order. -/
def mixedChoice : Choice :=
  Choice.node [[1, 0], [2, 1]]
    [Choice.node [[0, 1]] [Choice.node [] [], Choice.node [] []],
     Choice.node [] [],
     Choice.node [[0]] [Choice.node [[0]] [Choice.node [] []]]]

/-- C4 (code-bug evidence): after tagging `Tree.from_list([0, 2])` — a root
whose children are a leaf and a 2-leaf node — both children land in the
same `grouped_children` group although their subtrees have different node
counts (1 versus 3), because `is_equal` compares arities only along the
zipped common prefix of the two traversals. -/
theorem c4_code_bug :
    groupedChildren [PTree.node [], PTree.node [PTree.node [], PTree.node []]] = [[0, 1]] ∧
      (travArities (PTree.node [])).length
        ≠ (travArities (PTree.node [PTree.node [], PTree.node []])).length ∧
      travArities (PTree.node []) ≠ travArities (PTree.node [PTree.node [], PTree.node []]) := by
  refine ⟨by decide, by decide, by decide⟩

/-- C3 (code-bug evidence): on `mixedPerm` — a legitimate
`TreePermutation` over a permutation of `range(4)` — `canonical` is not
idempotent: one application gives elements `[1, 2, 0, 3]`, a second
application changes them to `[0, 1, 2, 3]`.  The overlapping
`grouped_children` produced by the truncating `is_equal` make the second
pass re-sort a group that the first pass disturbed. -/
theorem c3_code_bug :
    isPerm 4 [1, 2, 3, 0] ∧ leafCount mixedTree = 4 ∧
      elements (canonicalT (canonicalT mixedPerm)) ≠ elements (canonicalT mixedPerm) ∧
      elements (canonicalT mixedPerm) = [1, 2, 0, 3] ∧
      elements (canonicalT (canonicalT mixedPerm)) = [0, 1, 2, 3] := by
  refine ⟨by decide, by decide, by decide, by decide, by decide⟩

/-- C2 (code-bug evidence): on `mixedPerm`, the legitimate `shuffle_nodes`
outcome `mixedChoice` leaves the equivalence class: canonicalizing the
shuffled permutation gives `[0, 1, 2, 3]` while canonicalizing the
original gives `[1, 2, 0, 3]`. -/
theorem c2_code_bug :
    choiceOk mixedPerm mixedChoice = true ∧
      elements (canonicalT (shuffleNodes mixedPerm mixedChoice))
        ≠ elements (canonicalT mixedPerm) ∧
      elements (canonicalT (shuffleNodes mixedPerm mixedChoice)) = [0, 1, 2, 3] := by
  refine ⟨by decide, by decide, by decide⟩

/-! Well-formedness of the tags produced by `_tag_nodes_` and preservation
of the element multiset by `canonical` and `shuffle_nodes`. -/

theorem ptreeInduction (t : PTree) {P : PTree → Prop}
    (h : ∀ cs, (∀ c ∈ cs, P c) → P (PTree.node cs)) : P t :=
  match t with
  | .node cs => h cs (fun c _hc => ptreeInduction c h)
termination_by sizeOf t
decreasing_by
  have := List.sizeOf_lt_of_mem _hc
  simp only [PTree.node.sizeOf_spec]
  omega

theorem ttreeInduction (t : TTree) {P : TTree → Prop}
    (h : ∀ p gs cs, (∀ c ∈ cs, P c) → P (TTree.node p gs cs)) : P t :=
  match t with
  | .node p gs cs => h p gs cs (fun c _hc => ttreeInduction c h)
termination_by sizeOf t
decreasing_by
  have := List.sizeOf_lt_of_mem _hc
  simp only [TTree.node.sizeOf_spec]
  omega

/-- Well-formed tags: at every node, every `grouped_children` group is a
list of distinct valid child positions. -/
inductive WF : TTree → Prop where
  | node (p : Nat) (gs : List (List Nat)) (cs : List TTree)
      (hg : ∀ g ∈ gs, g.Nodup ∧ ∀ i ∈ g, i < cs.length)
      (hc : ∀ c ∈ cs, WF c) : WF (TTree.node p gs cs)

theorem foldl_set_nil {α : Type} :
    ∀ (pairs : List (α × Nat)), pairs.foldl (fun l p => l.set p.2 p.1) [] = [] := by
  intro pairs
  induction pairs with
  | nil => rfl
  | cons q rest ih => rw [List.foldl_cons, List.set_nil]; exact ih

theorem swapT_nil {α : Type} [Inhabited α] (index : List Nat) :
    swapT ([] : List α) index = [] := foldl_set_nil _

theorem elementsL_eq (cs : List TTree) : elementsL cs = (cs.map elements).flatten := by
  induction cs with
  | nil => rfl
  | cons c cs ih => rw [elementsL, ih, List.map_cons, List.flatten_cons]

theorem elements_node_of_ne_nil (p : Nat) (gs : List (List Nat)) (cs : List TTree)
    (h : cs ≠ []) : elements (TTree.node p gs cs) = elementsL cs := by
  cases cs with
  | nil => exact absurd rfl h
  | cons c cs => rfl

theorem elementsL_perm_of_perm (cs1 cs2 : List TTree) (h : cs1.Perm cs2) :
    (elementsL cs1).Perm (elementsL cs2) := by
  rw [elementsL_eq, elementsL_eq]
  exact (h.map elements).flatten

theorem canonicalL_length (cs : List TTree) : (canonicalL cs).length = cs.length := by
  induction cs with
  | nil => rfl
  | cons c cs ih => rw [canonicalL, List.length_cons, List.length_cons, ih]

theorem sortGroup_perm_g (cs : List TTree) (g : List Nat) : (sortGroup cs g).Perm g := by
  rw [sortGroup]
  have h1 := (sortPy_perm pairLe (g.map (fun i => (pidx (cs.getD i default), i)))).map
    (fun s : Nat × Nat => s.2)
  have h2 : List.map (fun s : Nat × Nat => s.2)
      (g.map (fun i => (pidx (cs.getD i default), i))) = g := by
    rw [List.map_map]
    have h3 : ∀ i ∈ g,
        ((fun s : Nat × Nat => s.2) ∘ fun i => (pidx (cs.getD i default), i)) i = i :=
      fun i _ => rfl
    rw [List.map_congr_left h3]
    exact List.map_id g
  rwa [h2] at h1

theorem canonNode_perm :
    ∀ (gs : List (List Nat)) (cs : List TTree),
      (∀ g ∈ gs, g.Nodup ∧ ∀ i ∈ g, i < cs.length) → (canonNode cs gs).Perm cs := by
  intro gs
  induction gs with
  | nil => intro cs _; exact List.Perm.refl _
  | cons g gs ih =>
    intro cs h
    obtain ⟨hnd, hval⟩ := h g (List.mem_cons_self g gs)
    have hsnd : (sortGroup cs g).Nodup := (sortGroup_perm_g cs g).nodup_iff.mpr hnd
    have hsval : ∀ i ∈ sortGroup cs g, i < cs.length :=
      fun i hi => hval i ((sortGroup_perm_g cs g).subset hi)
    have hstep : (swapT cs (sortGroup cs g)).Perm cs := swapT_perm cs _ hsnd hsval
    have hlen : (swapT cs (sortGroup cs g)).length = cs.length := swapT_length _ _
    have hrest : (canonNode (swapT cs (sortGroup cs g)) gs).Perm
        (swapT cs (sortGroup cs g)) := by
      apply ih
      intro g2 hg2
      obtain ⟨h1, h2⟩ := h g2 (List.mem_cons_of_mem g hg2)
      exact ⟨h1, fun i hi => by rw [hlen]; exact h2 i hi⟩
    have hcanon : canonNode cs (g :: gs) = canonNode (swapT cs (sortGroup cs g)) gs := by
      rw [canonNode, canonNode, List.foldl_cons]
    rw [hcanon]
    exact hrest.trans hstep

theorem foldl_swapT_perm :
    ∀ (gps : List (List Nat)) (cs : List TTree),
      (∀ g ∈ gps, g.Nodup ∧ ∀ i ∈ g, i < cs.length) →
      (gps.foldl (fun l g => swapT l g) cs).Perm cs := by
  intro gps
  induction gps with
  | nil => intro cs _; exact List.Perm.refl _
  | cons g gps ih =>
    intro cs h
    obtain ⟨hnd, hval⟩ := h g (List.mem_cons_self g gps)
    have hstep : (swapT cs g).Perm cs := swapT_perm cs g hnd hval
    have hlen : (swapT cs g).length = cs.length := swapT_length _ _
    rw [List.foldl_cons]
    refine (ih (swapT cs g) ?_).trans hstep
    intro g2 hg2
    obtain ⟨h1, h2⟩ := h g2 (List.mem_cons_of_mem g hg2)
    exact ⟨h1, fun i hi => by rw [hlen]; exact h2 i hi⟩

theorem foldl_canonStep_nil :
    ∀ (gs : List (List Nat)),
      gs.foldl (fun l g => swapT l (sortGroup l g)) ([] : List TTree) = [] := by
  intro gs
  induction gs with
  | nil => rfl
  | cons g gs ih => rw [List.foldl_cons, swapT_nil]; exact ih

theorem canonNode_nil (gs : List (List Nat)) : canonNode ([] : List TTree) gs = [] := by
  rw [canonNode]; exact foldl_canonStep_nil gs

theorem foldl_swapT_nil :
    ∀ (gps : List (List Nat)),
      gps.foldl (fun l g => swapT l g) ([] : List TTree) = [] := by
  intro gps
  induction gps with
  | nil => rfl
  | cons g gps ih => rw [List.foldl_cons, swapT_nil]; exact ih

theorem elementsL_canonicalL_perm :
    ∀ (cs : List TTree),
      (∀ c ∈ cs, WF c → (elements (canonicalT c)).Perm (elements c)) →
      (∀ c ∈ cs, WF c) →
      (elementsL (canonicalL cs)).Perm (elementsL cs) := by
  intro cs
  induction cs with
  | nil => intro _ _; exact List.Perm.refl _
  | cons c cs ih =>
    intro hmem hwf
    rw [canonicalL, elementsL, elementsL]
    exact (hmem c (List.mem_cons_self c cs) (hwf c (List.mem_cons_self c cs))).append
      (ih (fun x hx => hmem x (List.mem_cons_of_mem c hx))
        (fun x hx => hwf x (List.mem_cons_of_mem c hx)))

theorem elements_canonicalT_perm :
    ∀ (t : TTree), WF t → (elements (canonicalT t)).Perm (elements t) := by
  intro t
  induction t using ttreeInduction with
  | h p gs cs ih =>
    intro hwf
    cases hwf with
    | node _ _ _ hg hc =>
      have hcanon : canonicalT (TTree.node p gs cs)
          = TTree.node p gs (canonNode (canonicalL cs) gs) := rfl
      rw [hcanon]
      cases cs with
      | nil =>
        rw [canonicalL, canonNode_nil]
      | cons c cs0 =>
        have hL : (canonicalL (c :: cs0)).length = (c :: cs0).length := canonicalL_length _
        have hgL : ∀ g ∈ gs, g.Nodup ∧ ∀ i ∈ g, i < (canonicalL (c :: cs0)).length := by
          intro g hg2
          obtain ⟨h1, h2⟩ := hg g hg2
          exact ⟨h1, fun i hi => by rw [hL]; exact h2 i hi⟩
        have hperm1 : (canonNode (canonicalL (c :: cs0)) gs).Perm (canonicalL (c :: cs0)) :=
          canonNode_perm gs _ hgL
        have hne : canonNode (canonicalL (c :: cs0)) gs ≠ [] := by
          intro he
          have hlen2 := hperm1.length_eq
          rw [he, List.length_nil, hL] at hlen2
          simp at hlen2
        rw [elements_node_of_ne_nil _ _ _ hne]
        have hchain1 : (elementsL (canonNode (canonicalL (c :: cs0)) gs)).Perm
            (elementsL (canonicalL (c :: cs0))) := elementsL_perm_of_perm _ _ hperm1
        have hchain2 : (elementsL (canonicalL (c :: cs0))).Perm (elementsL (c :: cs0)) :=
          elementsL_canonicalL_perm (c :: cs0) ih hc
        exact (hchain1.trans hchain2).trans
          (by rw [elements_node_of_ne_nil p gs (c :: cs0) (List.cons_ne_nil c cs0)])

theorem shuffleNodesL_length :
    ∀ (cs : List TTree) (cc : List Choice), (shuffleNodesL cs cc).length = cs.length := by
  intro cs
  induction cs with
  | nil => intro cc; rfl
  | cons c cs ih =>
    intro cc
    cases cc with
    | nil => rfl
    | cons k ks =>
      rw [shuffleNodesL, List.length_cons, List.length_cons, ih ks]

theorem mem_gps_perm :
    ∀ (gs gps : List (List Nat)), gs.length = gps.length →
      ((gs.zip gps).all (fun p => p.2.isPerm p.1)) = true →
      ∀ g2 ∈ gps, ∃ g ∈ gs, g2.Perm g := by
  intro gs
  induction gs with
  | nil =>
    intro gps hlen _ g2 hg2
    have : gps = [] := by
      cases gps with
      | nil => rfl
      | cons a b => simp at hlen
    rw [this] at hg2
    simp at hg2
  | cons g gs ih =>
    intro gps hlen hall g2 hg2
    cases gps with
    | nil => simp at hg2
    | cons g0 gps0 =>
      rw [List.zip_cons_cons, List.all_cons, Bool.and_eq_true] at hall
      rcases List.mem_cons.mp hg2 with he | hmem
      · refine ⟨g, List.mem_cons_self g gs, ?_⟩
        rw [he]
        exact List.isPerm_iff.mp hall.1
      · obtain ⟨ga, hga, hp⟩ := ih gps0 (by simpa using hlen) hall.2 g2 hmem
        exact ⟨ga, List.mem_cons_of_mem g hga, hp⟩

theorem elementsL_shuffleNodesL_perm :
    ∀ (cs : List TTree) (cc : List Choice),
      (∀ c ∈ cs, ∀ k : Choice, WF c → choiceOk c k = true →
        (elements (shuffleNodes c k)).Perm (elements c)) →
      (∀ c ∈ cs, WF c) → choiceOkL cs cc = true →
      (elementsL (shuffleNodesL cs cc)).Perm (elementsL cs) := by
  intro cs
  induction cs with
  | nil => intro cc _ _ _; exact List.Perm.refl _
  | cons c cs ih =>
    intro cc hmem hwf hok
    cases cc with
    | nil => simp [choiceOkL] at hok
    | cons k ks =>
      rw [choiceOkL, Bool.and_eq_true] at hok
      rw [shuffleNodesL, elementsL, elementsL]
      exact (hmem c (List.mem_cons_self c cs) k (hwf c (List.mem_cons_self c cs)) hok.1).append
        (ih ks (fun x hx => hmem x (List.mem_cons_of_mem c hx))
          (fun x hx => hwf x (List.mem_cons_of_mem c hx)) hok.2)

theorem elements_shuffleNodes_perm :
    ∀ (t : TTree) (ch : Choice), WF t → choiceOk t ch = true →
      (elements (shuffleNodes t ch)).Perm (elements t) := by
  intro t
  induction t using ttreeInduction with
  | h p gs cs ih =>
    intro ch hwf hok
    cases hwf with
    | node _ _ _ hg hc =>
      cases ch with
      | node gps cc =>
        rw [choiceOk, Bool.and_eq_true, Bool.and_eq_true, Bool.and_eq_true] at hok
        obtain ⟨⟨⟨hlen1, hall⟩, _⟩, hlcc⟩ := hok
        rw [beq_iff_eq] at hlen1
        have hchildren : (elementsL (shuffleNodesL cs cc)).Perm (elementsL cs) :=
          elementsL_shuffleNodesL_perm cs cc ih hc hlcc
        have hlenS : (shuffleNodesL cs cc).length = cs.length := shuffleNodesL_length cs cc
        have hgval : ∀ g2 ∈ gps, g2.Nodup ∧ ∀ i ∈ g2, i < (shuffleNodesL cs cc).length := by
          intro g2 hg2
          obtain ⟨g, hgmem, hperm⟩ := mem_gps_perm gs gps hlen1 hall g2 hg2
          obtain ⟨h1, h2⟩ := hg g hgmem
          exact ⟨hperm.nodup_iff.mpr h1,
            fun i hi => by rw [hlenS]; exact h2 i (hperm.subset hi)⟩
        have hfold : (gps.foldl (fun l g => swapT l g) (shuffleNodesL cs cc)).Perm
            (shuffleNodesL cs cc) := foldl_swapT_perm gps _ hgval
        have hsh : shuffleNodes (TTree.node p gs cs) (Choice.node gps cc)
            = TTree.node p gps (gps.foldl (fun l g => swapT l g) (shuffleNodesL cs cc)) := rfl
        rw [hsh]
        cases cs with
        | nil =>
          have h0 : shuffleNodesL ([] : List TTree) cc = [] := rfl
          rw [h0, foldl_swapT_nil]
          exact List.Perm.refl _
        | cons c cs0 =>
          have hne : gps.foldl (fun l g => swapT l g) (shuffleNodesL (c :: cs0) cc) ≠ [] := by
            intro he
            have hlen3 := hfold.length_eq
            rw [he, List.length_nil, hlenS] at hlen3
            simp at hlen3
          rw [elements_node_of_ne_nil _ _ _ hne,
            elements_node_of_ne_nil p gs (c :: cs0) (List.cons_ne_nil c cs0)]
          exact (elementsL_perm_of_perm _ _ hfold).trans hchildren

theorem filterMap_fst_sublist {β : Type} :
    ∀ (l : List (Nat × β)) (p : Nat × β → Bool),
      (l.filterMap (fun ic => if p ic then some ic.1 else none)).Sublist (l.map Prod.fst) := by
  intro l
  induction l with
  | nil => intro p; exact List.Sublist.refl []
  | cons x xs ih =>
    intro p
    rw [List.filterMap_cons, List.map_cons]
    by_cases hp : p x = true
    · rw [hp]
      exact List.Sublist.cons₂ x.1 (ih p)
    · rw [Bool.eq_false_iff.mpr hp]
      exact List.Sublist.cons x.1 (ih p)

theorem groupedChildren_wf (cs : List PTree) :
    ∀ g ∈ groupedChildren cs, g.Nodup ∧ ∀ i ∈ g, i < cs.length := by
  intro g hg
  rw [groupedChildren] at hg
  obtain ⟨t, _, he⟩ := List.mem_map.mp hg
  have hsub : g.Sublist (((List.range cs.length).zip cs).map Prod.fst) := by
    rw [← he]
    exact filterMap_fst_sublist _ _
  have hfst : ((List.range cs.length).zip cs).map Prod.fst = List.range cs.length :=
    List.map_fst_zip _ _ (by simp)
  rw [hfst] at hsub
  exact ⟨hsub.nodup (List.nodup_range _),
    fun i hi => List.mem_range.mp (hsub.subset hi)⟩

theorem tagTreeL_length :
    ∀ (cs : List PTree) (es : List Nat), (tagTreeL cs es).1.length = cs.length := by
  intro cs
  induction cs with
  | nil => intro es; rfl
  | cons c cs ih =>
    intro es
    rw [tagTreeL, List.length_cons, List.length_cons, ih]

theorem tagTreeL_wf :
    ∀ (cs : List PTree), (∀ c ∈ cs, ∀ es : List Nat, WF ((tagTree c es).1)) →
      ∀ (es : List Nat), ∀ x ∈ (tagTreeL cs es).1, WF x := by
  intro cs
  induction cs with
  | nil => intro _ es x hx; simp [tagTreeL] at hx
  | cons c cs ih =>
    intro hmem es x hx
    rw [tagTreeL] at hx
    rcases List.mem_cons.mp hx with he | hm
    · rw [he]
      exact hmem c (List.mem_cons_self c cs) es
    · exact ih (fun y hy => hmem y (List.mem_cons_of_mem c hy)) _ x hm

theorem tagT_wf : ∀ (t : PTree) (es : List Nat), WF (tagT t es) := by
  intro t
  induction t using ptreeInduction with
  | h cs ih =>
    intro es
    cases cs with
    | nil =>
      exact WF.node _ [] [] (by intro g hg; simp at hg) (by intro c hc; simp at hc)
    | cons c cs0 =>
      have hT : tagT (PTree.node (c :: cs0)) es
          = TTree.node (minPidx (tagTreeL (c :: cs0) es).1) (groupedChildren (c :: cs0))
              (tagTreeL (c :: cs0) es).1 := rfl
      rw [hT]
      refine WF.node _ _ _ ?_ ?_
      · intro g hg
        obtain ⟨h1, h2⟩ := groupedChildren_wf (c :: cs0) g hg
        exact ⟨h1, fun i hi => by rw [tagTreeL_length]; exact h2 i hi⟩
      · exact tagTreeL_wf (c :: cs0) (fun x hx es2 => ih x hx es2) es

theorem tagTreeL_elements :
    ∀ (cs : List PTree),
      (∀ c ∈ cs, ∀ es : List Nat, leafCount c ≤ es.length →
        elements ((tagTree c es).1) = es.take (leafCount c) ∧
          (tagTree c es).2 = es.drop (leafCount c)) →
      ∀ (es : List Nat), leafCountL cs ≤ es.length →
        elementsL (tagTreeL cs es).1 = es.take (leafCountL cs) ∧
          (tagTreeL cs es).2 = es.drop (leafCountL cs) := by
  intro cs
  induction cs with
  | nil =>
    intro _ es _
    constructor
    · rfl
    · rfl
  | cons c cs ih =>
    intro hmem es hlen
    have hlc : leafCount c ≤ es.length := by
      have := leafCountL (c :: cs)
      rw [show leafCountL (c :: cs) = leafCount c + leafCountL cs from rfl] at hlen
      omega
    obtain ⟨he1, he2⟩ := hmem c (List.mem_cons_self c cs) es hlc
    have hlcs : leafCountL cs ≤ (tagTree c es).2.length := by
      rw [he2, List.length_drop]
      rw [show leafCountL (c :: cs) = leafCount c + leafCountL cs from rfl] at hlen
      omega
    obtain ⟨hr1, hr2⟩ := ih (fun x hx => hmem x (List.mem_cons_of_mem c hx)) _ hlcs
    rw [show leafCountL (c :: cs) = leafCount c + leafCountL cs from rfl]
    constructor
    · rw [tagTreeL]
      show elements (tagTree c es).1 ++ elementsL (tagTreeL cs (tagTree c es).2).1 = _
      rw [he1, hr1, he2, List.take_add]
    · rw [tagTreeL]
      show (tagTreeL cs (tagTree c es).2).2 = _
      rw [hr2, he2, List.drop_drop]

theorem tagT_elements :
    ∀ (t : PTree) (es : List Nat), leafCount t ≤ es.length →
      elements (tagT t es) = es.take (leafCount t) ∧
        (tagTree t es).2 = es.drop (leafCount t) := by
  intro t
  induction t using ptreeInduction with
  | h cs ih =>
    intro es hlen
    cases cs with
    | nil =>
      cases es with
      | nil => simp [leafCount] at hlen
      | cons e es0 =>
        constructor
        · rfl
        · rfl
    | cons c cs0 =>
      have hlc : leafCount (PTree.node (c :: cs0)) = leafCountL (c :: cs0) := rfl
      rw [hlc] at hlen ⊢
      obtain ⟨h1, h2⟩ := tagTreeL_elements (c :: cs0) ih es hlen
      constructor
      · have hne : (tagTreeL (c :: cs0) es).1 ≠ [] := by
          intro he
          have := tagTreeL_length (c :: cs0) es
          rw [he] at this
          simp at this
        have hT : tagT (PTree.node (c :: cs0)) es
            = TTree.node (minPidx (tagTreeL (c :: cs0) es).1) (groupedChildren (c :: cs0))
                (tagTreeL (c :: cs0) es).1 := rfl
        rw [hT, elements_node_of_ne_nil _ _ _ hne]
        exact h1
      · exact h2

theorem elements_tagT_eq (t : PTree) (es : List Nat) (h : leafCount t = es.length) :
    elements (tagT t es) = es := by
  obtain ⟨h1, _⟩ := tagT_elements t es (by omega)
  rw [h1, h, List.take_length]

/-- `Permutation.copy()`: a deep copy leaves the element list unchanged. -/
def copyPerm (l : List Nat) : List Nat := l

theorem order_perm (l : List Nat) : (order l).Perm (List.range l.length) := by
  rw [order]
  have h1 := (sortPy_perm (fun a b : Nat × Nat => a.1 ≤ b.1)
    (l.zip (List.range l.length))).map (fun x : Nat × Nat => x.2)
  have h2 : List.map (fun x : Nat × Nat => x.2) (l.zip (List.range l.length))
      = List.range l.length := List.map_snd_zip _ _ (by simp)
  rwa [h2] at h1

theorem isPerm_of_isindex (l : List Nat) (h : isindex l = true) : isPerm l.length l := by
  rw [isindex, List.all_eq_true] at h
  have hsub : List.range l.length ⊆ l := by
    intro i hi
    have := h i hi
    rwa [List.elem_iff] at this
  have hsp := (List.nodup_range l.length).subperm hsub
  exact (hsp.perm_of_length_le (by simp)).symm

/-- C8: the elements sequence is a permutation of `range(n)` after
construction from `(n, id)`, from a complete-index list, or by copy, and
this is preserved by `shuffle` (any reshuffling outcome), `__add__`,
`inverse`, and — for a `TreePermutation` — by `canonical` and by any
legitimate outcome of `shuffle_nodes`. -/
theorem c8_elements_invariant :
    (∀ n id, isPerm n (permFromId n id)) ∧
    (∀ l : List Nat, isindex l = true → isPerm l.length l) ∧
    (∀ n (l : List Nat), isPerm n l → isPerm n (copyPerm l)) ∧
    (∀ n (l l2 : List Nat), isPerm n l → l2.Perm l → isPerm n l2) ∧
    (∀ n (a b : List Nat), isPerm n a → isPerm n b →
      ∃ r, addPerm a b = some r ∧ isPerm n r) ∧
    (∀ n (l : List Nat), isPerm n l → isPerm n (inversePerm l)) ∧
    (∀ (s : PTree) (es : List Nat) n, isPerm n es → leafCount s = es.length →
      isPerm n (elements (canonicalT (tagT s es)))) ∧
    (∀ (s : PTree) (es : List Nat) n (ch : Choice), isPerm n es →
      leafCount s = es.length → choiceOk (tagT s es) ch = true →
      isPerm n (elements (shuffleNodes (tagT s es) ch))) := by
  refine ⟨?_, ?_, ?_, ?_, ?_, ?_, ?_, ?_⟩
  · intro n id
    exact permFromId_perm n id
  · intro l h
    exact isPerm_of_isindex l h
  · intro n l h
    exact h
  · intro n l l2 h hp
    exact hp.trans h
  · intro n a b ha hb
    obtain ⟨ia, hia, hialt, _⟩ := permId_spec n a ha
    obtain ⟨ib, hib, _, _⟩ := permId_spec n b hb
    have hlena : a.length = n := by simpa using ha.length_eq
    have hlenb : b.length = n := by simpa using hb.length_eq
    refine ⟨permFromId n ((ia + ib) % factorial n), ?_, permFromId_perm n _⟩
    rw [addPerm, if_neg (show ¬a.length ≠ b.length by rw [hlena, hlenb]; simp)]
    simp only [hia, hib]
    rw [hlena, hlenb]
  · intro n l h
    have hlen : l.length = n := by simpa using h.length_eq
    rw [inversePerm]
    have := order_perm l
    rwa [hlen] at this
  · intro s es n hperm hlen
    have hel : elements (tagT s es) = es := elements_tagT_eq s es hlen
    have hcan := elements_canonicalT_perm (tagT s es) (tagT_wf s es)
    rw [hel] at hcan
    exact hcan.trans hperm
  · intro s es n ch hperm hlen hok
    have hel : elements (tagT s es) = es := elements_tagT_eq s es hlen
    have hsh := elements_shuffleNodes_perm (tagT s es) ch (tagT_wf s es) hok
    rw [hel] at hsh
    exact hsh.trans hperm

theorem c8_elements_invariant_witness :
    isindex [1, 0] = true ∧ isPerm ([1, 0] : List Nat).length [1, 0] :=
  ⟨by decide, c8_elements_invariant.2.1 [1, 0] (by decide)⟩
